import Mathlib

/-!
Verification of the FreeBencode codec (`src/lib/util/bencode.py`, Python 2).

Python 2 `str` values are byte strings; we model them as `List Char` (every
character of interest is a single byte).  Machine integers do not occur:
Python's `long` is arbitrary precision, modelled by `Int`/`Nat`.

The decoder (`bdecode` and friends) is a recursive-descent parser whose
recursion is not structural on the buffer, so the embedding uses an explicit
fuel parameter; `PyErr.outOfFuel` marks fuel exhaustion and is proved
unreachable for the fuel supplied by the top-level wrapper `bdecode`.
Python exceptions other than `BencodeError` that can escape the module
(`ValueError` from `long()`, `TypeError` from hashing an unhashable dict key,
`KeyError` from `obj[key]`, `IndexError` from `string[0]` on an empty string)
are modelled as their own error constructors.
-/

namespace FreeBencode

/-- A Python 2 byte string. -/
abbrev Str := List Char

/-- The raise sites of `BencodeError` in the source, one constructor per
distinct message.  `dictItemsError` models the re-raise in `bdecode_dict`
that wraps a `BencodeError` thrown while decoding the items as a list. -/
inductive BErr where
  /-- "Invalid bencoded object: empty." -/
  | emptyInput
  /-- "Invalid bencoded object: no type indicator." -/
  | missingTypeIndicator
  /-- "Invalid bencoded int: string does not start with i." -/
  | intNoStartI
  /-- "Invalid bencoded int: string does not terminate." -/
  | unterminatedInteger
  /-- "Invalid bencoded string: string does not contain a colon." -/
  | strNoColon
  /-- "Invalid bencoded string: string length not an integer." -/
  | invalidStringLength
  /-- "Invalid bencoded string: negative length." -/
  | negativeStringLength
  /-- "Invalid bencoded string: Too long length." -/
  | truncatedString
  /-- "Invalid bencoded list: string does not start with l." -/
  | listNoStartL
  /-- "Invalid bencoded list: did not terminate with e." -/
  | unterminatedList
  /-- "Invalid bencoded dict: string does not start with d." -/
  | dictNoStartD
  /-- "Error while decoding dict items as list" wrapping an inner error. -/
  | dictItemsError (inner : BErr)
  /-- "Invalid bencoded dict: odd number of items." -/
  | oddDictItemCount
deriving DecidableEq

/-- Outcomes of a failing call: a `BencodeError`, or one of the raw Python
exceptions that the module lets escape.  `outOfFuel` is the embedding's
fuel marker, proved unreachable for the wrapper's fuel. -/
inductive PyErr where
  | bencode (e : BErr)
  /-- `ValueError`, from the unguarded `factory(parts[0][1:])` call, i.e.
  `long()` applied to a non-numeric string in `bdecode_int`. -/
  | valueError
  /-- `TypeError`, from using an unhashable value (a list or dict) as a
  dictionary key in `bdecode_dict`. -/
  | typeError
  /-- `KeyError`, from `obj[key]` in `bencode_dict` when a coerced key is
  not present. -/
  | keyError
  /-- `IndexError`, from `string[0]` on an empty string (only reachable by
  calling `bdecode_list`/`bdecode_dict` directly with an empty buffer). -/
  | indexError
  /-- Fuel exhaustion marker of the embedding, not a Python behaviour. -/
  | outOfFuel
deriving DecidableEq

/-- The native Python values the codec handles: `int`/`long`, `bool`,
`str`, `list` and `dict` (a dict is its association list in insertion
order; keys may be arbitrary values, as in Python). -/
inductive PyVal where
  | int (n : Int)
  | bool (b : Bool)
  | str (s : Str)
  | list (xs : List PyVal)
  | dict (entries : List (PyVal × PyVal))

/-- Python's `string.partition(sep)` for a one-character separator:
`(before, sep-or-empty, after)`, splitting at the first occurrence;
`(s, "", "")` when the separator does not occur. -/
def partition3 (sep : Char) : Str → Str × Str × Str
  | [] => ([], [], [])
  | x :: xs =>
    if x = sep then ([], [sep], xs)
    else
      let p := partition3 sep xs
      (x :: p.1, p.2.1, p.2.2)

/-- The whitespace characters stripped by Python's `int()`/`long()`. -/
def pyWs (c : Char) : Bool :=
  c = ' ' || c = '\t' || c = '\n' || c = (Char.ofNat 11) || c = (Char.ofNat 12) || c = '\r'

/-- Strip leading and trailing whitespace. -/
def stripWs (s : Str) : Str :=
  ((s.dropWhile pyWs).reverse.dropWhile pyWs).reverse

/-- Python 2 `str.isdigit()` for a single byte: an ASCII decimal digit. -/
def pyDigit (c : Char) : Bool :=
  '0' ≤ c && c ≤ '9'

/-- Numeric value of a digit run, most significant digit first. -/
def digitsVal (s : Str) : Nat :=
  s.foldl (fun a c => 10 * a + (c.toNat - 48)) 0

/-- Python 2 `long(s)` (and `int(s)`) on a byte string: strip surrounding
whitespace, allow one optional sign, then a non-empty all-digit run;
anything else raises `ValueError`, modelled as `none`. -/
def pyLong (s : Str) : Option Int :=
  match stripWs s with
  | [] => none
  | c :: ds =>
    if c = '-' then
      if !ds.isEmpty && ds.all pyDigit then some (-(digitsVal ds : Int)) else none
    else if c = '+' then
      if !ds.isEmpty && ds.all pyDigit then some (digitsVal ds : Int) else none
    else if (c :: ds).all pyDigit then some (digitsVal (c :: ds) : Int) else none

/-- The ASCII character of a decimal digit. -/
def digitChar (d : Nat) : Char := Char.ofNat (48 + d)

/-- Digits of `n`, accumulator style; the first argument is fuel bounding
the number of divisions (any fuel `≥ n` is enough). -/
def natToDigitsGo : Nat → Nat → Str → Str
  | 0, _, acc => acc
  | f + 1, n, acc =>
    if n = 0 then acc else natToDigitsGo f (n / 10) (digitChar (n % 10) :: acc)

/-- Base-10 rendering of a natural number, as Python's `"{0:d}".format`. -/
def natToDigits (n : Nat) : Str :=
  if n = 0 then ['0'] else natToDigitsGo n n []

/-- Base-10 rendering of an integer, as Python renders a `long`:
a single leading `-` exactly when negative, no leading zeros. -/
def intToStr (n : Int) : Str :=
  if n < 0 then '-' :: natToDigits n.natAbs else natToDigits n.toNat

/-- `bencode_int`: `"i{0:-d}e".format(long(obj))`. -/
def bencode_int (n : Int) : Str :=
  'i' :: (intToStr n ++ ['e'])

/-- `bencode_str`: `"{0:d}:{1:s}".format(len(obj), str(obj))`. -/
def bencode_str (s : Str) : Str :=
  natToDigits s.length ++ ':' :: s

/-- `bdecode_int` (default factory `long`): reject buffers of length at
most 2 or not starting with `i`; split on the first `e`; if nothing follows
that `e` (also when no `e` occurs at all — the source tests `parts[2]`, not
`parts[1]`), fail with the does-not-terminate error; otherwise convert the
text between `i` and the `e` with `long()`. -/
def bdecode_int (s : Str) : Except PyErr (PyVal × Str) :=
  if s.length ≤ 2 then .error (.bencode .intNoStartI)
  else if s.head? ≠ some 'i' then .error (.bencode .intNoStartI)
  else
    let parts := partition3 'e' s
    if parts.2.2 = [] then .error (.bencode .unterminatedInteger)
    else
      match pyLong (parts.1.drop 1) with
      | none => .error .valueError
      | some n => .ok (.int n, parts.2.2)

/-- `bdecode_str` (default factory `str`): split on the first colon; if
nothing follows it (also when no colon occurs — the source tests
`parts[2]`), fail; parse the prefix with `int()` (`ValueError` is caught
and becomes a `BencodeError`); check the declared length; consume it. -/
def bdecode_str (s : Str) : Except PyErr (PyVal × Str) :=
  let parts := partition3 ':' s
  if parts.2.2 = [] then .error (.bencode .strNoColon)
  else
    match pyLong parts.1 with
    | none => .error (.bencode .invalidStringLength)
    | some len =>
      if len < 0 then .error (.bencode .negativeStringLength)
      else if (parts.2.2.length : Int) < len then .error (.bencode .truncatedString)
      else .ok (.str (parts.2.2.take len.toNat), parts.2.2.drop len.toNat)

/-- Python dict key hashing/equality among values the decoder can produce
as keys: `long`s compare by value (`bool` by its 0/1 value), `str`s by
content, and nothing else is equal. -/
def pyKeyEq : PyVal → PyVal → Bool
  | .int a, .int b => a = b
  | .int a, .bool b => a = (if b then 1 else 0)
  | .bool a, .int b => (if a then (1 : Int) else 0) = b
  | .bool a, .bool b => a = b
  | .str a, .str b => a = b
  | _, _ => false

/-- One Python dict assignment `d[k] = v`: replace the value of an equal
key if present (the stored key object is kept), otherwise append. -/
def pyInsert (d : List (PyVal × PyVal)) (k v : PyVal) : List (PyVal × PyVal) :=
  if d.any (fun p => pyKeyEq p.1 k) then
    d.map (fun p => if pyKeyEq p.1 k then (p.1, v) else p)
  else d ++ [(k, v)]

/-- The `for i in range(0, len(items), 2): result[items[i]] = items[i+1]`
loop of `bdecode_dict`: lists and dicts are unhashable keys
(`TypeError`); a trailing unpaired item would be an `IndexError`, but the
caller checks the parity first. -/
def mkPyDict : List PyVal → List (PyVal × PyVal) → Except PyErr (List (PyVal × PyVal))
  | [], d => .ok d
  | [_], _ => .error .indexError
  | k :: v :: rest, d =>
    match k with
    | .list _ => .error .typeError
    | .dict _ => .error .typeError
    | _ => mkPyDict rest (pyInsert d k v)

mutual

/-- Mutual fueled embedding of `bdecode`, `bdecode_list` (split into the
header check and its `while` loop) and `bdecode_dict`; every recursive
call spends one unit of fuel. -/
def bdecodeF : Nat → Str → Except PyErr (PyVal × Str)
  | 0, _ => .error .outOfFuel
  | g + 1, s =>
    match s with
    | [] => .error (.bencode .emptyInput)
    | c :: _ =>
      if c = 'i' then bdecode_int s
      else if c = 'l' then
        match bdecode_listF g s with
        | .error e => .error e
        | .ok (xs, r) => .ok (.list xs, r)
      else if c = 'd' then bdecode_dictF g s
      else if pyDigit c then bdecode_str s
      else .error (.bencode .missingTypeIndicator)

/-- `bdecode_list` (default factory `list`): check the leading `l`, then
run the item loop on the rest. -/
def bdecode_listF : Nat → Str → Except PyErr (List PyVal × Str)
  | 0, _ => .error .outOfFuel
  | g + 1, s =>
    match s with
    | [] => .error .indexError
    | c :: rest =>
      if c ≠ 'l' then .error (.bencode .listNoStartL)
      else bdecode_loopF g rest []

/-- The `while leftovers and leftovers[0] != 'e'` loop of `bdecode_list`,
with the trailing termination check and the consumption of the final `e`. -/
def bdecode_loopF : Nat → Str → List PyVal → Except PyErr (List PyVal × Str)
  | 0, _, _ => .error .outOfFuel
  | g + 1, l, acc =>
    match l with
    | [] => .error (.bencode .unterminatedList)
    | c :: rest =>
      if c = 'e' then .ok (acc, rest)
      else
        match bdecodeF g (c :: rest) with
        | .error e => .error e
        | .ok (v, lrest) => bdecode_loopF g lrest (acc ++ [v])

/-- `bdecode_dict` (default factory `dict`): check the leading `d`, decode
`'l' + string[1:]` as a list (re-wrapping a `BencodeError`, while other
exceptions propagate), check the item-count parity, build the dict. -/
def bdecode_dictF : Nat → Str → Except PyErr (PyVal × Str)
  | 0, _ => .error .outOfFuel
  | g + 1, s =>
    match s with
    | [] => .error .indexError
    | c :: rest =>
      if c ≠ 'd' then .error (.bencode .dictNoStartD)
      else
        match bdecode_listF g ('l' :: rest) with
        | .error (.bencode e) => .error (.bencode (.dictItemsError e))
        | .error e => .error e
        | .ok (items, leftovers) =>
          if items.length % 2 ≠ 0 then .error (.bencode .oddDictItemCount)
          else
            match mkPyDict items [] with
            | .error e => .error e
            | .ok d => .ok (.dict d, leftovers)

end

/-- Top-level `bdecode`.  The fuel `4 * length + 2` is proved sufficient
(`bdecode_no_fuel_error` below), so the wrapper is the source's `bdecode`. -/
def bdecode (s : Str) : Except PyErr (PyVal × Str) :=
  bdecodeF (4 * s.length + 2) s

/-- Python's `str(k)` as applied to dictionary keys by `bencode_dict`.
For an `int`/`long` this is its decimal rendering, for a `bool` the words
`True`/`False`, for a `str` the string itself.  `str()` of a list or dict
produces its `repr`, which depends on Python 2's unspecified dict iteration
order; it is left as `[]` here and no theorem below depends on it (all
claims about dictionaries concern string keys). -/
def pyStr : PyVal → Str
  | .int n => intToStr n
  | .bool b => if b then ['T', 'r', 'u', 'e'] else ['F', 'a', 'l', 's', 'e']
  | .str s => s
  | .list _ => []
  | .dict _ => []

/-- Python `==` between the byte string `k` and a dictionary key: only a
`str` key with the same content is equal. -/
def keyMatches (k : Str) : PyVal → Bool
  | .str t => t = k
  | _ => false

/-- The lookup `obj[key]` performed by `bencode_dict` with the coerced
(string) key: the value of the first entry whose key equals it. -/
def lookupStr (k : Str) (e : List (PyVal × PyVal)) : Option PyVal :=
  (e.find? (fun p => keyMatches k p.1)).map (fun p => p.2)

/-- Python 2's `<=` on byte strings: lexicographic by byte value. -/
def strLeB : Str → Str → Bool
  | [], _ => true
  | _ :: _, [] => false
  | x :: xs, y :: ys => if x < y then true else if y < x then false else strLeB xs ys

/-- The ordering used by `keys.sort()`, as a proposition. -/
def StrLe (a b : Str) : Prop := strLeB a b = true

instance : DecidableRel StrLe := fun a b => inferInstanceAs (Decidable (strLeB a b = true))

/-- `keys = [str(k) for k in obj.keys()]; keys.sort()` of `bencode_dict`. -/
def sortKeys (e : List (PyVal × PyVal)) : List Str :=
  List.insertionSort StrLe (e.map (fun p => pyStr p.1))

mutual

/-- A structural size of a value, used only as fuel for the embedded
encoder; `bencode_fuel_sufficient` shows it bounds the recursion. -/
def pySize : PyVal → Nat
  | .int _ => 1
  | .bool _ => 1
  | .str _ => 1
  | .list xs => 1 + pySizeList xs
  | .dict e => 1 + e.length + pySizeEntries e

/-- Size of a list of values (at least 1). -/
def pySizeList : List PyVal → Nat
  | [] => 1
  | x :: xs => pySize x + pySizeList xs

/-- Size of a dict's entry list (at least 1). -/
def pySizeEntries : List (PyVal × PyVal) → Nat
  | [] => 1
  | p :: ps => 1 + pySize p.1 + pySize p.2 + pySizeEntries ps

end

mutual

/-- Fueled embedding of `bencode`: dispatch on the value's type exactly as
the `isinstance` chain does (`int`/`long`/`bool` first — so a `bool` is
encoded via `long(obj)`, i.e. as 0 or 1 — then strings, lists, dicts).
Every `PyVal` matches one of the four type groups, so the final
`BencodeError("Cannot bencode object")` branch is unreachable. -/
def bencodeF : Nat → PyVal → Except PyErr Str
  | 0, _ => .error .outOfFuel
  | g + 1, v =>
    match v with
    | .int n => .ok (bencode_int n)
    | .bool b => .ok (bencode_int (if b then 1 else 0))
    | .str s => .ok (bencode_str s)
    | .list xs =>
      match bencodeElemsF g xs with
      | .error e => .error e
      | .ok body => .ok ('l' :: (body ++ ['e']))
    | .dict e =>
      match bencodeEntriesF g (sortKeys e) e with
      | .error er => .error er
      | .ok body => .ok ('d' :: (body ++ ['e']))

/-- The `"".join(bencode(x) for x in obj)` of `bencode_list`. -/
def bencodeElemsF : Nat → List PyVal → Except PyErr Str
  | 0, _ => .error .outOfFuel
  | _ + 1, [] => .ok []
  | g + 1, x :: xs =>
    match bencodeF g x with
    | .error e => .error e
    | .ok hd =>
      match bencodeElemsF g xs with
      | .error e => .error e
      | .ok tl => .ok (hd ++ tl)

/-- The `"".join(bencode_str(k) + bencode(obj[k]) for k in keys)` of
`bencode_dict`, over the sorted coerced keys; a coerced key not present
in the dict raises `KeyError`. -/
def bencodeEntriesF : Nat → List Str → List (PyVal × PyVal) → Except PyErr Str
  | 0, _, _ => .error .outOfFuel
  | _ + 1, [], _ => .ok []
  | g + 1, k :: ks, e =>
    match lookupStr k e with
    | none => .error .keyError
    | some v =>
      match bencodeF g v with
      | .error er => .error er
      | .ok hv =>
        match bencodeEntriesF g ks e with
        | .error er => .error er
        | .ok tl => .ok (bencode_str k ++ (hv ++ tl))

end

/-- Top-level `bencode`.  The fuel `pySize v` is proved sufficient
(`bencode_fuel_sufficient` below), so the wrapper is the source's
`bencode`. -/
def bencode (v : PyVal) : Except PyErr Str :=
  bencodeF (pySize v) v

/-! ### Structure of `partition` -/

theorem partition3_not_mem {c : Char} : ∀ {s : Str}, c ∉ s → partition3 c s = (s, [], [])
  | [], _ => rfl
  | x :: xs, h => by
    have hx : ¬x = c := fun hne => h (hne ▸ List.mem_cons_self x xs)
    have ih := partition3_not_mem (show c ∉ xs from fun hm => h (List.mem_cons_of_mem x hm))
    simp [partition3, hx, ih]

theorem partition3_append {c : Char} : ∀ {pre : Str} (post : Str), c ∉ pre →
    partition3 c (pre ++ c :: post) = (pre, [c], post)
  | [], post, _ => by simp [partition3]
  | x :: xs, post, h => by
    have hx : ¬x = c := fun hne => h (hne ▸ List.mem_cons_self x xs)
    have ih := partition3_append post (show c ∉ xs from fun hm => h (List.mem_cons_of_mem x hm))
    simp [partition3, hx, ih]

theorem partition3_cases (c : Char) : ∀ s : Str,
    (partition3 c s = (s, [], []) ∧ c ∉ s) ∨
    (∃ a r, s = a ++ c :: r ∧ c ∉ a ∧ partition3 c s = (a, [c], r))
  | [] => Or.inl ⟨rfl, by simp⟩
  | x :: xs => by
    by_cases hx : x = c
    · subst hx
      exact Or.inr ⟨[], xs, by simp, by simp, by simp [partition3]⟩
    · rcases partition3_cases c xs with ⟨heq, hmem⟩ | ⟨a, r, hs, hmem, heq⟩
      · refine Or.inl ⟨by simp [partition3, hx, heq], ?_⟩
        simp only [List.mem_cons, not_or]
        exact ⟨fun h => hx h.symm, hmem⟩
      · refine Or.inr ⟨x :: a, r, by simp [hs], ?_, by simp [partition3, hx, heq]⟩
        simp only [List.mem_cons, not_or]
        exact ⟨fun h => hx h.symm, hmem⟩

/-! ### Evaluation of `long()` on clean digit runs -/

theorem pyWs_of_digit {c : Char} (h : pyDigit c = true) : pyWs c = false := by
  simp only [pyDigit, Bool.and_eq_true, decide_eq_true_eq] at h
  obtain ⟨h1, h2⟩ := h
  simp only [pyWs, Bool.or_eq_false_iff, decide_eq_false_iff_not]
  refine ⟨⟨⟨⟨⟨?_, ?_⟩, ?_⟩, ?_⟩, ?_⟩, ?_⟩ <;> (rintro rfl; revert h1; decide)

theorem stripWs_of_no_ws {s : Str} (hnd : ∀ c ∈ s, pyWs c = false) : stripWs s = s := by
  have h1 : s.dropWhile pyWs = s := by
    cases s with
    | nil => rfl
    | cons x xs => simp [List.dropWhile_cons, hnd x (List.mem_cons_self x xs)]
  rw [stripWs, h1]
  have h2 : s.reverse.dropWhile pyWs = s.reverse := by
    cases hr : s.reverse with
    | nil => rfl
    | cons x xs =>
      have hx : x ∈ s := by
        have : x ∈ s.reverse := hr ▸ List.mem_cons_self x xs
        simpa using this
      simp [List.dropWhile_cons, hnd x hx]
  rw [h2, List.reverse_reverse]

theorem digit_ne_minus {c : Char} (h : pyDigit c = true) : c ≠ '-' := by
  rintro rfl; revert h; decide

theorem digit_ne_plus {c : Char} (h : pyDigit c = true) : c ≠ '+' := by
  rintro rfl; revert h; decide

theorem pyLong_digits {s : Str} (hne : s ≠ []) (hd : s.all pyDigit = true) :
    pyLong s = some (digitsVal s : Int) := by
  have hs : stripWs s = s :=
    stripWs_of_no_ws (fun c hc => pyWs_of_digit (List.all_eq_true.mp hd c hc))
  cases s with
  | nil => exact absurd rfl hne
  | cons x xs =>
    have hx : pyDigit x = true := List.all_eq_true.mp hd x (List.mem_cons_self x xs)
    rw [pyLong]
    rw [hs]
    simp [digit_ne_minus hx, digit_ne_plus hx, hd]

theorem pyLong_neg_digits {s : Str} (hne : s ≠ []) (hd : s.all pyDigit = true) :
    pyLong ('-' :: s) = some (-(digitsVal s : Int)) := by
  have hs : stripWs ('-' :: s) = '-' :: s := by
    refine stripWs_of_no_ws ?_
    intro c hc
    rcases List.mem_cons.mp hc with rfl | hc
    · decide
    · exact pyWs_of_digit (List.all_eq_true.mp hd c hc)
  rw [pyLong, hs]
  simp [hne, hd]

theorem pyLong_nil : pyLong [] = none := rfl

/-! ### Consumption: a successful parse strictly shrinks the buffer and
returns a suffix of it -/

theorem bdecode_int_consume {s : Str} {v : PyVal} {r : Str}
    (h : bdecode_int s = .ok (v, r)) : r.length < s.length ∧ r <:+ s := by
  unfold bdecode_int at h
  by_cases h1 : s.length ≤ 2
  · simp [h1] at h
  rw [if_neg h1] at h
  by_cases h2 : s.head? ≠ some 'i'
  · rw [if_pos h2] at h; simp at h
  rw [if_neg h2] at h
  rcases partition3_cases 'e' s with ⟨heq, _⟩ | ⟨a, rr, hs, _, heq⟩
  · simp only [heq] at h; simp at h
  · simp only [heq] at h
    by_cases h3 : rr = []
    · simp [h3] at h
    · rw [if_neg h3] at h
      cases hp : pyLong (a.drop 1) with
      | none => rw [hp] at h; simp at h
      | some n =>
        rw [hp] at h
        simp only [Except.ok.injEq, Prod.mk.injEq] at h
        obtain ⟨_, hr⟩ := h
        subst hr
        constructor
        · subst hs; simp; omega
        · subst hs; exact (List.suffix_cons 'e' rr).trans (List.suffix_append a _)

theorem bdecode_str_consume {s : Str} {v : PyVal} {r : Str}
    (h : bdecode_str s = .ok (v, r)) : r.length < s.length ∧ r <:+ s := by
  unfold bdecode_str at h
  rcases partition3_cases ':' s with ⟨heq, _⟩ | ⟨a, rr, hs, _, heq⟩
  · simp only [heq] at h; simp at h
  · simp only [heq] at h
    by_cases h3 : rr = []
    · simp [h3] at h
    · rw [if_neg h3] at h
      split at h
      · simp at h
      · split at h
        · simp at h
        · split at h
          · simp at h
          · simp only [Except.ok.injEq, Prod.mk.injEq] at h
            obtain ⟨_, hr⟩ := h
            subst hr
            constructor
            · subst hs
              simp [List.length_drop]
              omega
            · subst hs
              exact ((List.drop_suffix _ rr).trans
                (List.suffix_cons ':' rr)).trans (List.suffix_append a _)

theorem decode_consume : ∀ f : Nat,
    (∀ s v r, bdecodeF f s = .ok (v, r) → r.length < s.length ∧ r <:+ s) ∧
    (∀ s xs r, bdecode_listF f s = .ok (xs, r) → r.length < s.length ∧ r <:+ s) ∧
    (∀ l acc xs r, bdecode_loopF f l acc = .ok (xs, r) → r.length < l.length ∧ r <:+ l) ∧
    (∀ s v r, bdecode_dictF f s = .ok (v, r) → r.length < s.length ∧ r <:+ s) := by
  intro f
  induction f with
  | zero =>
    refine ⟨?_, ?_, ?_, ?_⟩
    · intro s v r h; simp [bdecodeF] at h
    · intro s xs r h; simp [bdecode_listF] at h
    · intro l acc xs r h; simp [bdecode_loopF] at h
    · intro s v r h; simp [bdecode_dictF] at h
  | succ g ih =>
    obtain ⟨ihB, ihL, ihLoop, ihD⟩ := ih
    have hLoop : ∀ l acc xs r, bdecode_loopF (g + 1) l acc = .ok (xs, r) →
        r.length < l.length ∧ r <:+ l := by
      intro l acc xs r h
      cases l with
      | nil => simp [bdecode_loopF] at h
      | cons c rest =>
        simp only [bdecode_loopF] at h
        by_cases he : c = 'e'
        · rw [if_pos he] at h
          simp only [Except.ok.injEq, Prod.mk.injEq] at h
          obtain ⟨_, hr⟩ := h
          subst hr
          exact ⟨by simp, List.suffix_cons c rest⟩
        · rw [if_neg he] at h
          cases hres : bdecodeF g (c :: rest) with
          | error e => rw [hres] at h; simp at h
          | ok p =>
            obtain ⟨v0, lrest⟩ := p
            rw [hres] at h
            have h1 := ihB _ _ _ hres
            have h2 := ihLoop _ _ _ _ h
            exact ⟨h2.1.trans h1.1, h2.2.trans h1.2⟩
    have hList : ∀ s xs r, bdecode_listF (g + 1) s = .ok (xs, r) →
        r.length < s.length ∧ r <:+ s := by
      intro s xs r h
      cases s with
      | nil => simp [bdecode_listF] at h
      | cons c rest =>
        simp only [bdecode_listF] at h
        by_cases hc : c = 'l'
        · rw [if_neg (not_not_intro hc)] at h
          have h1 := ihLoop _ _ _ _ h
          exact ⟨Nat.lt_trans h1.1 (by simp), h1.2.trans (List.suffix_cons c rest)⟩
        · rw [if_pos hc] at h; simp at h
    refine ⟨?_, hList, hLoop, ?_⟩
    · intro s v r h
      cases s with
      | nil => simp [bdecodeF] at h
      | cons c cs =>
        simp only [bdecodeF] at h
        by_cases hi : c = 'i'
        · rw [if_pos hi] at h; exact bdecode_int_consume h
        · rw [if_neg hi] at h
          by_cases hl : c = 'l'
          · rw [if_pos hl] at h
            cases hres : bdecode_listF g (c :: cs) with
            | error e => rw [hres] at h; simp at h
            | ok p =>
              obtain ⟨xs0, r0⟩ := p
              rw [hres] at h
              simp only [Except.ok.injEq, Prod.mk.injEq] at h
              obtain ⟨_, hr⟩ := h
              subst hr
              exact ihL _ _ _ hres
          · rw [if_neg hl] at h
            by_cases hdc : c = 'd'
            · rw [if_pos hdc] at h; exact ihD _ _ _ h
            · rw [if_neg hdc] at h
              by_cases hg : pyDigit c
              · rw [if_pos hg] at h; exact bdecode_str_consume h
              · rw [if_neg hg] at h; simp at h
    · intro s v r h
      cases s with
      | nil => simp [bdecode_dictF] at h
      | cons c rest =>
        simp only [bdecode_dictF] at h
        by_cases hc : c = 'd'
        · rw [if_neg (not_not_intro hc)] at h
          cases hres : bdecode_listF g ('l' :: rest) with
          | error e =>
            rw [hres] at h
            cases e <;> simp at h
          | ok p =>
            obtain ⟨items, leftovers⟩ := p
            rw [hres] at h
            have h1 := ihL _ _ _ hres
            split at h
            · simp at h
            · simp at h
            · rename_i items2 leftovers2 heq2
              obtain ⟨rfl, rfl⟩ : items = items2 ∧ leftovers = leftovers2 := by
                simpa using heq2
              split at h
              · simp at h
              · split at h
                · simp at h
                · simp only [Except.ok.injEq, Prod.mk.injEq] at h
                  obtain ⟨_, hr⟩ := h
                  subst hr
                  constructor
                  · simpa using h1.1
                  · rcases List.suffix_cons_iff.mp h1.2 with heq | hsuf
                    · exfalso
                      have := h1.1
                      rw [heq] at this
                      simp at this
                    · exact hsuf.trans (List.suffix_cons c rest)
        · rw [if_pos hc] at h; simp at h

/-! ### The errors `bdecode` can produce: a `BencodeError`, a `ValueError`
or a `TypeError`, never the fuel marker, an `IndexError` or a `KeyError` -/

/-- The exceptions that can escape a top-level `bdecode` call. -/
def GoodErr : PyErr → Prop
  | .bencode _ => True
  | .valueError => True
  | .typeError => True
  | _ => False

theorem bdecode_int_err {s : Str} {e : PyErr}
    (he : bdecode_int s = .error e) : GoodErr e := by
  unfold bdecode_int at he
  by_cases h1 : s.length ≤ 2
  · rw [if_pos h1] at he
    simp only [Except.error.injEq] at he; subst he; trivial
  · rw [if_neg h1] at he
    by_cases h2 : s.head? ≠ some 'i'
    · rw [if_pos h2] at he
      simp only [Except.error.injEq] at he; subst he; trivial
    · rw [if_neg h2] at he
      by_cases h3 : (partition3 'e' s).2.2 = []
      · rw [if_pos h3] at he
        simp only [Except.error.injEq] at he; subst he; trivial
      · rw [if_neg h3] at he
        split at he
        · simp only [Except.error.injEq] at he; subst he; trivial
        · simp at he

theorem bdecode_str_err {s : Str} {e : PyErr}
    (he : bdecode_str s = .error e) : GoodErr e := by
  unfold bdecode_str at he
  by_cases h3 : (partition3 ':' s).2.2 = []
  · rw [if_pos h3] at he
    simp only [Except.error.injEq] at he; subst he; trivial
  · rw [if_neg h3] at he
    split at he
    · simp only [Except.error.injEq] at he; subst he; trivial
    · split at he
      · simp only [Except.error.injEq] at he; subst he; trivial
      · split at he
        · simp only [Except.error.injEq] at he; subst he; trivial
        · simp at he

theorem mkPyDict_err : ∀ (items : List PyVal) (d : List (PyVal × PyVal)) {e : PyErr},
    items.length % 2 = 0 → mkPyDict items d = .error e → GoodErr e
  | [], _, _, _, he => by simp [mkPyDict] at he
  | [_], _, _, hpar, _ => by simp at hpar
  | k :: v :: rest, d, e, hpar, he => by
    have hpar2 : rest.length % 2 = 0 := by
      simp only [List.length_cons] at hpar; omega
    cases k with
    | list xs =>
      simp only [mkPyDict, Except.error.injEq] at he
      subst he; trivial
    | dict es =>
      simp only [mkPyDict, Except.error.injEq] at he
      subst he; trivial
    | int n => exact mkPyDict_err rest _ hpar2 (by simpa [mkPyDict] using he)
    | bool b => exact mkPyDict_err rest _ hpar2 (by simpa [mkPyDict] using he)
    | str t => exact mkPyDict_err rest _ hpar2 (by simpa [mkPyDict] using he)

theorem decode_good : ∀ f : Nat,
    (∀ s, 4 * s.length + 2 ≤ f → ∀ e, bdecodeF f s = .error e → GoodErr e) ∧
    (∀ s : Str, s ≠ [] → 4 * s.length ≤ f → ∀ e, bdecode_listF f s = .error e → GoodErr e) ∧
    (∀ l acc, 4 * l.length + 3 ≤ f → ∀ e, bdecode_loopF f l acc = .error e → GoodErr e) ∧
    (∀ s : Str, s ≠ [] → 4 * s.length + 1 ≤ f → ∀ e, bdecode_dictF f s = .error e → GoodErr e) := by
  intro f
  induction f with
  | zero =>
    refine ⟨?_, ?_, ?_, ?_⟩
    · intro s hb; omega
    · intro s hne hb
      have := List.length_pos.mpr hne
      omega
    · intro l acc hb; omega
    · intro s hne hb
      have := List.length_pos.mpr hne
      omega
  | succ g ih =>
    obtain ⟨ihB, ihL, ihLoop, ihD⟩ := ih
    have hLoop : ∀ l acc, 4 * l.length + 3 ≤ g + 1 →
        ∀ e, bdecode_loopF (g + 1) l acc = .error e → GoodErr e := by
      intro l acc hb e he
      cases l with
      | nil =>
        simp only [bdecode_loopF, Except.error.injEq] at he
        subst he; trivial
      | cons c rest =>
        simp only [bdecode_loopF] at he
        by_cases hce : c = 'e'
        · rw [if_pos hce] at he; simp at he
        · rw [if_neg hce] at he
          cases hres : bdecodeF g (c :: rest) with
          | error e0 =>
            rw [hres] at he
            simp only [Except.error.injEq] at he
            subst he
            refine ihB _ ?_ _ hres
            simp only [List.length_cons] at hb ⊢
            omega
          | ok p =>
            obtain ⟨v0, lrest⟩ := p
            rw [hres] at he
            have hcons := ((decode_consume g).1 _ _ _ hres).1
            refine ihLoop _ _ ?_ _ he
            simp only [List.length_cons] at hb hcons
            omega
    have hList : ∀ s : Str, s ≠ [] → 4 * s.length ≤ g + 1 →
        ∀ e, bdecode_listF (g + 1) s = .error e → GoodErr e := by
      intro s hne hb e he
      cases s with
      | nil => exact absurd rfl hne
      | cons c rest =>
        simp only [bdecode_listF] at he
        by_cases hc : c = 'l'
        · rw [if_neg (not_not_intro hc)] at he
          refine ihLoop _ _ ?_ _ he
          simp only [List.length_cons] at hb
          omega
        · rw [if_pos hc] at he
          simp only [Except.error.injEq] at he
          subst he; trivial
    refine ⟨?_, hList, hLoop, ?_⟩
    · intro s hb e he
      cases s with
      | nil =>
        simp only [bdecodeF, Except.error.injEq] at he
        subst he; trivial
      | cons c cs =>
        simp only [bdecodeF] at he
        by_cases hi : c = 'i'
        · rw [if_pos hi] at he; exact bdecode_int_err he
        · rw [if_neg hi] at he
          by_cases hl : c = 'l'
          · rw [if_pos hl] at he
            cases hres : bdecode_listF g (c :: cs) with
            | error e0 =>
              rw [hres] at he
              simp only [Except.error.injEq] at he
              subst he
              refine ihL _ (by simp) ?_ _ hres
              simp only [List.length_cons] at hb ⊢
              omega
            | ok p =>
              obtain ⟨xs0, r0⟩ := p
              rw [hres] at he
              simp at he
          · rw [if_neg hl] at he
            by_cases hdc : c = 'd'
            · rw [if_pos hdc] at he
              refine ihD _ (by simp) ?_ _ he
              simp only [List.length_cons] at hb ⊢
              omega
            · rw [if_neg hdc] at he
              by_cases hg : pyDigit c
              · rw [if_pos hg] at he; exact bdecode_str_err he
              · rw [if_neg hg] at he
                simp only [Except.error.injEq] at he
                subst he; trivial
    · intro s hne hb e he
      cases s with
      | nil => exact absurd rfl hne
      | cons c rest =>
        simp only [bdecode_dictF] at he
        by_cases hc : c = 'd'
        · rw [if_neg (not_not_intro hc)] at he
          have hbound : 4 * ('l' :: rest).length ≤ g := by
            simp only [List.length_cons] at hb ⊢
            omega
          cases hres : bdecode_listF g ('l' :: rest) with
          | error e0 =>
            rw [hres] at he
            cases e0 with
            | bencode k =>
              simp only [Except.error.injEq] at he
              subst he; trivial
            | valueError =>
              simp only [Except.error.injEq] at he
              subst he
              exact ihL _ (by simp) hbound _ hres
            | typeError =>
              simp only [Except.error.injEq] at he
              subst he
              exact ihL _ (by simp) hbound _ hres
            | keyError =>
              exact absurd (ihL _ (by simp) hbound _ hres) (by simp [GoodErr])
            | indexError =>
              exact absurd (ihL _ (by simp) hbound _ hres) (by simp [GoodErr])
            | outOfFuel =>
              exact absurd (ihL _ (by simp) hbound _ hres) (by simp [GoodErr])
          | ok p =>
            obtain ⟨items, leftovers⟩ := p
            rw [hres] at he
            split at he
            · rename_i heq0
              simp at heq0
            · rename_i heq0
              simp at heq0
            · rename_i items2 leftovers2 heq2
              obtain ⟨rfl, rfl⟩ : items = items2 ∧ leftovers = leftovers2 := by
                simpa using heq2
              split at he
              · simp only [Except.error.injEq] at he
                subst he; trivial
              · rename_i hpar
                split at he
                · rename_i e0 hmk
                  simp only [Except.error.injEq] at he
                  subst he
                  exact mkPyDict_err items [] (not_ne_iff.mp hpar) hmk
                · simp at he
        · rw [if_pos hc] at he
          simp only [Except.error.injEq] at he
          subst he; trivial

/-- The wrapper's fuel never runs out: the embedding is faithful. -/
theorem bdecode_no_fuel_error (s : Str) : bdecode s ≠ .error .outOfFuel := by
  intro h
  exact (decode_good (4 * s.length + 2)).1 s (le_refl _) _ h

theorem bdecode_err {s : Str} {e : PyErr} (he : bdecode s = .error e) : GoodErr e :=
  (decode_good (4 * s.length + 2)).1 s (le_refl _) e he

/-! ### Decimal rendering of integers -/

theorem natToDigitsGo_zero : ∀ (f : Nat) (acc : Str), natToDigitsGo f 0 acc = acc
  | 0, _ => rfl
  | _ + 1, _ => by simp [natToDigitsGo]

theorem natToDigitsGo_append : ∀ (f n : Nat) (acc : Str),
    natToDigitsGo f n acc = natToDigitsGo f n [] ++ acc
  | 0, _, _ => rfl
  | f + 1, n, acc => by
    by_cases hn : n = 0
    · simp [natToDigitsGo, hn]
    · rw [natToDigitsGo, if_neg hn, natToDigitsGo_append f (n / 10),
        natToDigitsGo, if_neg hn, natToDigitsGo_append f (n / 10) [digitChar (n % 10)]]
      simp

theorem digitsVal_foldl_init (s : Str) : ∀ a : Nat,
    s.foldl (fun x c => 10 * x + (c.toNat - 48)) a = a * 10 ^ s.length + digitsVal s := by
  induction s with
  | nil => intro a; simp [digitsVal]
  | cons c t ih =>
    intro a
    have hv : digitsVal (c :: t) = (c.toNat - 48) * 10 ^ t.length + digitsVal t := by
      rw [digitsVal, List.foldl_cons, ih]
      simp
    rw [List.foldl_cons, ih, hv]
    simp only [List.length_cons, Nat.pow_succ]
    ring

theorem digitsVal_append_digit (xs : Str) (c : Char) :
    digitsVal (xs ++ [c]) = 10 * digitsVal xs + (c.toNat - 48) := by
  rw [digitsVal, List.foldl_append]
  rfl

theorem digitChar_toNat {d : Nat} (h : d < 10) : (digitChar d).toNat = 48 + d := by
  interval_cases d <;> rfl

theorem pyDigit_digitChar {d : Nat} (h : d < 10) : pyDigit (digitChar d) = true := by
  interval_cases d <;> rfl

theorem digitChar_ne_zero {d : Nat} (h1 : d < 10) (h2 : d ≠ 0) : digitChar d ≠ '0' := by
  interval_cases d
  · exact absurd rfl h2
  all_goals decide

theorem digitsVal_natToDigitsGo : ∀ (f n : Nat), n ≤ f →
    digitsVal (natToDigitsGo f n []) = n
  | 0, n, h => by
    have : n = 0 := Nat.le_zero.mp h
    subst this
    rfl
  | f + 1, n, h => by
    by_cases hn : n = 0
    · simp [hn, natToDigitsGo_zero, digitsVal]
    · rw [natToDigitsGo, if_neg hn, natToDigitsGo_append, digitsVal_append_digit,
        digitsVal_natToDigitsGo f (n / 10) (by omega)]
      rw [digitChar_toNat (Nat.mod_lt n (by omega))]
      omega

theorem all_digits_natToDigitsGo : ∀ (f n : Nat),
    (natToDigitsGo f n []).all pyDigit = true
  | 0, _ => rfl
  | f + 1, n => by
    by_cases hn : n = 0
    · simp [hn, natToDigitsGo_zero]
    · rw [natToDigitsGo, if_neg hn, natToDigitsGo_append]
      rw [List.all_append]
      rw [all_digits_natToDigitsGo f (n / 10)]
      simp [pyDigit_digitChar (Nat.mod_lt n (by omega))]

theorem head_natToDigitsGo : ∀ (f n : Nat), 0 < n → n ≤ f →
    ∃ c t, natToDigitsGo f n [] = c :: t ∧ pyDigit c = true ∧ c ≠ '0'
  | 0, n, h0, hf => absurd (Nat.le_zero.mp hf) (by omega)
  | f + 1, n, h0, hf => by
    have hn : n ≠ 0 := by omega
    rw [natToDigitsGo, if_neg hn, natToDigitsGo_append]
    by_cases hq : n / 10 = 0
    · rw [hq, natToDigitsGo_zero]
      have hmod : n % 10 = n := Nat.mod_eq_of_lt (by omega)
      refine ⟨digitChar (n % 10), [], by simp, pyDigit_digitChar (Nat.mod_lt n (by omega)), ?_⟩
      exact digitChar_ne_zero (Nat.mod_lt n (by omega)) (by omega)
    · obtain ⟨c, t, heq, hdig, hne⟩ :=
        head_natToDigitsGo f (n / 10) (by omega) (by omega)
      exact ⟨c, t ++ [digitChar (n % 10)], by rw [heq]; simp, hdig, hne⟩

theorem digitsVal_natToDigits (n : Nat) : digitsVal (natToDigits n) = n := by
  by_cases hn : n = 0
  · subst hn; rfl
  · rw [natToDigits, if_neg hn]
    exact digitsVal_natToDigitsGo n n (le_refl n)

theorem all_digits_natToDigits (n : Nat) : (natToDigits n).all pyDigit = true := by
  by_cases hn : n = 0
  · subst hn; rfl
  · rw [natToDigits, if_neg hn]
    exact all_digits_natToDigitsGo n n

theorem natToDigits_ne_nil (n : Nat) : natToDigits n ≠ [] := by
  by_cases hn : n = 0
  · subst hn; simp [natToDigits]
  · rw [natToDigits, if_neg hn]
    obtain ⟨c, t, heq, _, _⟩ := head_natToDigitsGo n n (by omega) (le_refl n)
    simp [heq]

theorem natToDigits_no_leading_zero {n : Nat} (hn : n ≠ 0) :
    ∃ c t, natToDigits n = c :: t ∧ pyDigit c = true ∧ c ≠ '0' := by
  rw [natToDigits, if_neg hn]
  exact head_natToDigitsGo n n (by omega) (le_refl n)

/-! ### Dispatch of `bdecode` on the first byte -/

theorem digit_ne_i {c : Char} (h : pyDigit c = true) : c ≠ 'i' := by
  rintro rfl; revert h; decide

theorem digit_ne_l {c : Char} (h : pyDigit c = true) : c ≠ 'l' := by
  rintro rfl; revert h; decide

theorem digit_ne_d {c : Char} (h : pyDigit c = true) : c ≠ 'd' := by
  rintro rfl; revert h; decide

theorem digit_ne_e {c : Char} (h : pyDigit c = true) : c ≠ 'e' := by
  rintro rfl; revert h; decide

theorem digit_ne_colon {c : Char} (h : pyDigit c = true) : c ≠ ':' := by
  rintro rfl; revert h; decide

theorem bdecode_nil_eq : bdecode [] = .error (.bencode .emptyInput) := rfl

theorem bdecode_cons_i (r : Str) : bdecode ('i' :: r) = bdecode_int ('i' :: r) := rfl

theorem bdecode_cons_l (r : Str) : bdecode ('l' :: r) =
    match bdecode_listF (4 * (r.length + 1) + 1) ('l' :: r) with
    | .error e => .error e
    | .ok (xs, rem) => .ok (.list xs, rem) := rfl

theorem bdecode_cons_d (r : Str) :
    bdecode ('d' :: r) = bdecode_dictF (4 * (r.length + 1) + 1) ('d' :: r) := rfl

theorem bdecode_cons_digit {c : Char} (r : Str) (h : pyDigit c = true) :
    bdecode (c :: r) = bdecode_str (c :: r) := by
  have h4 : (4 * (c :: r : Str).length + 2) = (4 * (c :: r : Str).length + 1) + 1 := rfl
  rw [bdecode, h4]
  simp only [bdecodeF]
  rw [if_neg (digit_ne_i h), if_neg (digit_ne_l h), if_neg (digit_ne_d h), if_pos h]

theorem bdecode_cons_other {c : Char} (r : Str) (h1 : c ≠ 'i') (h2 : c ≠ 'l')
    (h3 : c ≠ 'd') (h4 : pyDigit c = false) :
    bdecode (c :: r) = .error (.bencode .missingTypeIndicator) := by
  have he : (4 * (c :: r : Str).length + 2) = (4 * (c :: r : Str).length + 1) + 1 := rfl
  rw [bdecode, he]
  simp only [bdecodeF]
  rw [if_neg h1, if_neg h2, if_neg h3, if_neg (by simp [h4])]

/-! ### Deep nesting -/

/-- The value of `d + 1` nested lists: `nestList 0` is `[]`, `nestList 1`
is `[[]]`, and so on. -/
def nestList : Nat → PyVal
  | 0 => .list []
  | d + 1 => .list [nestList d]

/-- The buffer of `d + 1` nested lists followed by `R`:
`l`^(d+1) `e`^(d+1) `R`, cons-exposed. -/
def nestBuf : Nat → Str → Str
  | 0, R => 'l' :: 'e' :: R
  | d + 1, R => 'l' :: nestBuf d ('e' :: R)

theorem nestBuf_eq : ∀ (d : Nat) (R : Str),
    nestBuf d R = List.replicate (d + 1) 'l' ++ (List.replicate (d + 1) 'e' ++ R)
  | 0, R => by simp [nestBuf, List.replicate]
  | d + 1, R => by
    rw [nestBuf, nestBuf_eq d ('e' :: R)]
    rw [show List.replicate (d + 1 + 1) 'l' = 'l' :: List.replicate (d + 1) 'l' from
      rfl]
    rw [show List.replicate (d + 1 + 1) 'e' = List.replicate (d + 1) 'e' ++ ['e'] from
      List.replicate_succ' (d + 1) 'e']
    simp [List.append_assoc]

theorem bdecodeF_nestBuf : ∀ (d f : Nat) (R : Str), 8 * d + 6 ≤ f →
    bdecodeF f (nestBuf d R) = .ok (nestList d, R)
  | 0, f, R, hf => by
    obtain ⟨g1, rfl⟩ : ∃ g, f = g + 1 := ⟨f - 1, by omega⟩
    obtain ⟨g2, rfl⟩ : ∃ g, g1 = g + 1 := ⟨g1 - 1, by omega⟩
    obtain ⟨g3, rfl⟩ : ∃ g, g2 = g + 1 := ⟨g2 - 1, by omega⟩
    simp [nestBuf, bdecodeF, bdecode_listF, bdecode_loopF, nestList]
  | d + 1, f, R, hf => by
    obtain ⟨g1, rfl⟩ : ∃ g, f = g + 1 := ⟨f - 1, by omega⟩
    obtain ⟨g2, rfl⟩ : ∃ g, g1 = g + 1 := ⟨g1 - 1, by omega⟩
    obtain ⟨g3, rfl⟩ : ∃ g, g2 = g + 1 := ⟨g2 - 1, by omega⟩
    have hIH := bdecodeF_nestBuf d g3 ('e' :: R) (by omega)
    rw [show nestBuf (d + 1) R = 'l' :: nestBuf d ('e' :: R) from rfl]
    simp only [bdecodeF, bdecode_listF, bdecode_loopF]
    rw [show nestBuf d ('e' :: R) = 'l' :: (match d with
        | 0 => 'e' :: 'e' :: R
        | d + 1 => nestBuf d ('e' :: 'e' :: R)) from by cases d <;> rfl]
    simp only [reduceIte]
    rw [show ('l' :: (match d with
        | 0 => 'e' :: 'e' :: R
        | d + 1 => nestBuf d ('e' :: 'e' :: R)) : Str) = nestBuf d ('e' :: R) from by
      cases d <;> rfl]
    rw [hIH]
    obtain ⟨g4, rfl⟩ : ∃ g, g3 = g + 1 := ⟨g3 - 1, by omega⟩
    simp [bdecode_loopF, nestList]

/-! ### Successful integer decodes -/

theorem bdecode_int_success (sign : Bool) (D R : Str) (hD : D ≠ [])
    (hdig : D.all pyDigit = true) (hR : R ≠ []) :
    bdecode_int ('i' :: ((if sign then ['-'] else []) ++ (D ++ 'e' :: R))) =
      .ok (.int (if sign then -(digitsVal D : Int) else (digitsVal D : Int)), R) := by
  have hDlen : 0 < D.length := List.length_pos.mpr hD
  have hRlen : 0 < R.length := List.length_pos.mpr hR
  have hDe : 'e' ∉ D := by
    intro hmem
    exact absurd (List.all_eq_true.mp hdig 'e' hmem) (by decide)
  have hsplit : ('i' :: ((if sign then ['-'] else []) ++ (D ++ 'e' :: R)) : Str) =
      ('i' :: ((if sign then ['-'] else []) ++ D)) ++ 'e' :: R := by
    simp [List.append_assoc]
  rw [hsplit]
  have hmem : 'e' ∉ ('i' :: ((if sign then ['-'] else []) ++ D)) := by
    simp only [List.mem_cons, List.mem_append, not_or]
    refine ⟨by decide, ?_, hDe⟩
    cases sign <;> simp
  unfold bdecode_int
  have hlen : ¬((('i' :: ((if sign then ['-'] else []) ++ D)) ++ 'e' :: R : Str).length ≤ 2) := by
    simp only [List.length_cons, List.length_append]
    omega
  rw [if_neg hlen]
  have hh : ((('i' :: ((if sign then ['-'] else []) ++ D)) ++ 'e' :: R : Str)).head? =
      some 'i' := rfl
  rw [if_neg (not_not_intro hh)]
  rw [partition3_append R hmem]
  cases sign with
  | false => simp [hR, pyLong_digits hD hdig]
  | true => simp [hR, pyLong_neg_digits hD hdig]

/-! ### Order lemmas for the key sort of `bencode_dict` -/

theorem strLeB_total : ∀ a b : Str, strLeB a b = true ∨ strLeB b a = true
  | [], _ => Or.inl rfl
  | _ :: _, [] => Or.inr rfl
  | x :: xs, y :: ys => by
    rcases lt_trichotomy x y with h | h | h
    · left; simp [strLeB, h]
    · subst h
      rcases strLeB_total xs ys with h | h
      · left; simp [strLeB, lt_irrefl, h]
      · right; simp [strLeB, lt_irrefl, h]
    · right; simp [strLeB, h]

theorem strLeB_trans : ∀ a b c : Str,
    strLeB a b = true → strLeB b c = true → strLeB a c = true
  | [], _, _, _, _ => rfl
  | _ :: _, [], _, h1, _ => by simp [strLeB] at h1
  | _ :: _, _ :: _, [], _, h2 => by simp [strLeB] at h2
  | x :: xs, y :: ys, z :: zs, h1, h2 => by
    by_cases hxy : x < y
    · by_cases hyz : y < z
      · simp [strLeB, lt_trans hxy hyz]
      · by_cases hzy : z < y
        · simp [strLeB, hyz, hzy] at h2
        · have heq : y = z := le_antisymm (not_lt.mp hzy) (not_lt.mp hyz)
          subst heq
          simp [strLeB, hxy]
    · by_cases hyx : y < x
      · simp [strLeB, hxy, hyx] at h1
      · have heq : x = y := le_antisymm (not_lt.mp hyx) (not_lt.mp hxy)
        subst heq
        rw [strLeB, if_neg (lt_irrefl x), if_neg (lt_irrefl x)] at h1
        by_cases hxz : x < z
        · simp [strLeB, hxz]
        · by_cases hzx : z < x
          · simp [strLeB, hxz, hzx] at h2
          · have heq2 : x = z := le_antisymm (not_lt.mp hzx) (not_lt.mp hxz)
            subst heq2
            rw [strLeB, if_neg (lt_irrefl x), if_neg (lt_irrefl x)] at h2 ⊢
            exact strLeB_trans xs ys zs h1 h2

theorem strLeB_antisymm : ∀ a b : Str, strLeB a b = true → strLeB b a = true → a = b
  | [], [], _, _ => rfl
  | [], _ :: _, _, h2 => by simp [strLeB] at h2
  | _ :: _, [], h1, _ => by simp [strLeB] at h1
  | x :: xs, y :: ys, h1, h2 => by
    by_cases hxy : x < y
    · simp [strLeB, hxy, lt_asymm hxy] at h2
    · by_cases hyx : y < x
      · simp [strLeB, hxy, hyx] at h1
      · have heq : x = y := le_antisymm (not_lt.mp hyx) (not_lt.mp hxy)
        subst heq
        rw [strLeB, if_neg (lt_irrefl x), if_neg (lt_irrefl x)] at h1 h2
        rw [strLeB_antisymm xs ys h1 h2]

instance : IsTotal Str StrLe := ⟨fun a b => strLeB_total a b⟩

instance : IsTrans Str StrLe := ⟨fun a b c => strLeB_trans a b c⟩

instance : IsAntisymm Str StrLe := ⟨fun a b => strLeB_antisymm a b⟩

theorem sortKeys_perm_eq {e1 e2 : List (PyVal × PyVal)} (h : e1.Perm e2) :
    sortKeys e1 = sortKeys e2 := by
  unfold sortKeys
  have hp : (e1.map (fun p => pyStr p.1)).Perm (e2.map (fun p => pyStr p.1)) := h.map _
  exact List.eq_of_perm_of_sorted
    ((List.perm_insertionSort StrLe _).trans (hp.trans (List.perm_insertionSort StrLe _).symm))
    (List.sorted_insertionSort StrLe _) (List.sorted_insertionSort StrLe _)

theorem sortKeys_strict (e : List (PyVal × PyVal))
    (hnd : (e.map (fun p => pyStr p.1)).Nodup) :
    (sortKeys e).Pairwise (fun a b => StrLe a b ∧ a ≠ b) := by
  have hs : (sortKeys e).Pairwise StrLe := List.sorted_insertionSort StrLe _
  have hnd2 : (sortKeys e).Nodup := ((List.perm_insertionSort StrLe _).nodup_iff).mpr hnd
  exact hs.and hnd2

/-! ### Lookup invariance under permutation of entries -/

theorem keyMatches_eq {k : Str} {v : PyVal} (h : keyMatches k v = true) : v = .str k := by
  cases v <;> simp [keyMatches] at h
  rw [h]

theorem find?_eq_of_perm {α : Type} {p : α → Bool} {l1 l2 : List α} (hperm : l1.Perm l2)
    (hu : ∀ a ∈ l1, ∀ b ∈ l1, p a = true → p b = true → a = b) :
    l1.find? p = l2.find? p := by
  cases h1 : l1.find? p with
  | none =>
    cases h2 : l2.find? p with
    | none => rfl
    | some b =>
      have hb := List.find?_some h2
      have hbm : b ∈ l1 := hperm.mem_iff.mpr (List.mem_of_find?_eq_some h2)
      exact absurd hb (List.find?_eq_none.mp h1 b hbm)
  | some a =>
    have ha := List.find?_some h1
    have ham : a ∈ l1 := List.mem_of_find?_eq_some h1
    cases h2 : l2.find? p with
    | none =>
      exact absurd ha (List.find?_eq_none.mp h2 a (hperm.mem_iff.mp ham))
    | some b =>
      have hb := List.find?_some h2
      have hbm : b ∈ l1 := hperm.mem_iff.mpr (List.mem_of_find?_eq_some h2)
      rw [hu a ham b hbm ha hb]

theorem lookupStr_perm {e1 e2 : List (PyVal × PyVal)} (hperm : e1.Perm e2)
    (hnd : (e1.map (fun p => pyStr p.1)).Nodup) (k : Str) :
    lookupStr k e1 = lookupStr k e2 := by
  unfold lookupStr
  rw [find?_eq_of_perm hperm]
  intro a ha b hb hpa hpb
  have ha1 : a.1 = .str k := keyMatches_eq hpa
  have hb1 : b.1 = .str k := keyMatches_eq hpb
  refine List.inj_on_of_nodup_map hnd ha hb ?_
  rw [ha1, hb1]

/-! ### Size and encoding are invariant under permutation of dict entries -/

theorem pySizeEntries_perm {e1 e2 : List (PyVal × PyVal)} (h : e1.Perm e2) :
    pySizeEntries e1 = pySizeEntries e2 := by
  induction h with
  | nil => rfl
  | cons x _ ih => simp [pySizeEntries, ih]
  | swap x y l => simp [pySizeEntries]; ring
  | trans _ _ ih1 ih2 => exact ih1.trans ih2

theorem bencodeEntriesF_congr : ∀ (f : Nat) (ks : List Str) {e1 e2 : List (PyVal × PyVal)},
    (∀ k, lookupStr k e1 = lookupStr k e2) →
    bencodeEntriesF f ks e1 = bencodeEntriesF f ks e2
  | 0, _, _, _, _ => rfl
  | _ + 1, [], _, _, _ => rfl
  | f + 1, k :: ks, e1, e2, hl => by
    simp only [bencodeEntriesF]
    rw [hl k]
    cases hx : lookupStr k e2 with
    | none => rfl
    | some v =>
      change (match bencodeF f v with
          | Except.error er => Except.error er
          | Except.ok hv =>
            match bencodeEntriesF f ks e1 with
            | Except.error er => Except.error er
            | Except.ok tl => Except.ok (bencode_str k ++ (hv ++ tl))) =
        (match bencodeF f v with
          | Except.error er => Except.error er
          | Except.ok hv =>
            match bencodeEntriesF f ks e2 with
            | Except.error er => Except.error er
            | Except.ok tl => Except.ok (bencode_str k ++ (hv ++ tl)))
      cases bencodeF f v with
      | error er => rfl
      | ok hv => rw [bencodeEntriesF_congr f ks hl]

theorem bencode_dict_perm {e1 e2 : List (PyVal × PyVal)}
    (hnd : (e1.map (fun p => pyStr p.1)).Nodup) (hperm : e1.Perm e2) :
    bencode (.dict e1) = bencode (.dict e2) := by
  unfold bencode
  have hsize : pySize (.dict e1) = pySize (.dict e2) := by
    simp [pySize, pySizeEntries_perm hperm, hperm.length_eq]
  rw [hsize]
  obtain ⟨g, hg⟩ : ∃ g, pySize (.dict e2) = g + 1 :=
    ⟨pySize (.dict e2) - 1, by simp [pySize]; omega⟩
  rw [hg]
  simp only [bencodeF]
  rw [sortKeys_perm_eq hperm,
    bencodeEntriesF_congr g (sortKeys e2) (lookupStr_perm hperm hnd)]

/-! ## Claims -/

/-- C1 (code bug): the round trip fails on the code as written.  Encoding
the integer 3 yields `i3e`, but decoding `i3e` raises the BencodeError
"string does not terminate": `bdecode_int` tests `parts[2]` (the text after
the first `e`) instead of `parts[1]` (whether an `e` was found), so a
buffer ending exactly at the integer's `e` is rejected.  The same slip in
`bdecode_str` rejects `0:`, the encoding of the empty string. -/
theorem c1_roundtrip_bug_eval :
    bencode (.int 3) = .ok ['i', '3', 'e'] ∧
    bdecode ['i', '3', 'e'] = .error (.bencode .unterminatedInteger) ∧
    bencode (.str []) = .ok ['0', ':'] ∧
    bdecode ['0', ':'] = .error (.bencode .strNoColon) :=
  ⟨rfl, rfl, rfl, rfl⟩

/-- C2 (counterexample): the claim asserts that decoding
`'i' ++ D ++ 'e' ++ R` succeeds for every trailing sequence R including
the empty one; for D = "3" and R = "" the code fails instead. -/
theorem c2_counterexample :
    bdecode ['i', '3', 'e'] = .error (.bencode .unterminatedInteger) := rfl

/-- C2 (amended): decoding `'i' ++ sign ++ D ++ 'e' ++ R` succeeds with the
signed integer and remainder R exactly when R is non-empty; with R empty it
fails with the does-not-terminate error; a buffer starting with `i` of
length at most 2 (such as `i3`) fails with the does-not-start-with-i error,
not the termination error; a longer `i`-buffer containing no `e` fails with
the does-not-terminate error; an empty digit run with a non-empty tail
(`ie` ++ R) escapes with `ValueError`, outside the `BencodeError` set. -/
theorem c2_integer_decoding :
    (∀ (sign : Bool) (D R : Str), D ≠ [] → D.all pyDigit = true → R ≠ [] →
      bdecode ('i' :: ((if sign then ['-'] else []) ++ (D ++ 'e' :: R))) =
        .ok (.int (if sign then -(digitsVal D : Int) else (digitsVal D : Int)), R)) ∧
    bdecode ['i', '3', 'e'] = .error (.bencode .unterminatedInteger) ∧
    bdecode ['i', '3'] = .error (.bencode .intNoStartI) ∧
    (∀ rest : Str, 'e' ∉ rest → 2 ≤ rest.length →
      bdecode ('i' :: rest) = .error (.bencode .unterminatedInteger)) ∧
    (∀ R : Str, R ≠ [] → bdecode ('i' :: 'e' :: R) = .error .valueError) := by
  refine ⟨?_, rfl, rfl, ?_, ?_⟩
  · intro sign D R hD hdig hR
    rw [bdecode_cons_i]
    exact bdecode_int_success sign D R hD hdig hR
  · intro rest hnot hlen2
    rw [bdecode_cons_i]
    unfold bdecode_int
    have h1 : ¬(('i' :: rest : Str).length ≤ 2) := by
      simp only [List.length_cons]
      omega
    rw [if_neg h1]
    have hh : (('i' :: rest : Str)).head? = some 'i' := rfl
    rw [if_neg (not_not_intro hh)]
    have hmem : 'e' ∉ ('i' :: rest : Str) := by
      simp only [List.mem_cons, not_or]
      exact ⟨by decide, hnot⟩
    rw [partition3_not_mem hmem]
    simp
  · intro R hR
    rw [bdecode_cons_i]
    unfold bdecode_int
    have h1 : ¬(('i' :: 'e' :: R : Str).length ≤ 2) := by
      have := List.length_pos.mpr hR
      simp only [List.length_cons]
      omega
    rw [if_neg h1]
    have hh : (('i' :: 'e' :: R : Str)).head? = some 'i' := rfl
    rw [if_neg (not_not_intro hh)]
    have hpart : partition3 'e' ('i' :: 'e' :: R) = (['i'], ['e'], R) := by
      rw [show ('i' :: 'e' :: R : Str) = ['i'] ++ 'e' :: R from rfl]
      exact partition3_append R (by decide)
    rw [hpart]
    simp [hR, pyLong_nil]

/-- C2 (witness): the success clause at sign `false`, digits `3`,
remainder `x`. -/
theorem c2_integer_decoding_witness : bdecode ['i', '3', 'e', 'x'] = .ok (.int 3, ['x']) :=
  c2_integer_decoding.1 false ['3'] ['x'] (by decide) rfl (by decide)

/-- C3 (counterexample): decoding `iabcex` raises Python's `ValueError`
from `long("abc")` — an exception outside the codec's `BencodeError` set
(the source only guards the conversion in `bdecode_str`, not in
`bdecode_int`). -/
theorem c3_counterexample : bdecode ['i', 'a', 'b', 'c', 'e', 'x'] = .error .valueError := rfl

/-- C3 (amended): a `bdecode` call either fully succeeds or fails with a
`BencodeError`, a `ValueError` (non-numeric integer body) or a `TypeError`
(unhashable dictionary key); no other exception — in particular no
`IndexError`, no `KeyError` and no fuel exhaustion of the embedding —
can come out of the top-level decoder.  It never returns a partial value:
an error carries no value at all. -/
theorem c3_closed_error_set (s : Str) :
    ∀ e, bdecode s = .error e →
      e = .valueError ∨ e = .typeError ∨ ∃ k, e = .bencode k := by
  intro e he
  have hg := bdecode_err he
  cases e with
  | bencode k => exact Or.inr (Or.inr ⟨k, rfl⟩)
  | valueError => exact Or.inl rfl
  | typeError => exact Or.inr (Or.inl rfl)
  | keyError => exact absurd hg (by simp [GoodErr])
  | indexError => exact absurd hg (by simp [GoodErr])
  | outOfFuel => exact absurd hg (by simp [GoodErr])

/-- C3 (witness): the amended claim applied to the buffer `x`, which fails
with the missing-type-indicator `BencodeError`. -/
theorem c3_closed_error_set_witness :
    PyErr.bencode .missingTypeIndicator = .valueError ∨
    PyErr.bencode .missingTypeIndicator = .typeError ∨
    ∃ k, PyErr.bencode .missingTypeIndicator = .bencode k :=
  c3_closed_error_set ['x'] (.bencode .missingTypeIndicator) rfl

/-- C4 (code bug): the claim says a buffer with declared length n = 0 and
zero following bytes (`0:`) succeeds with the empty string, and that a
buffer with fewer than n bytes after the colon fails with the truncated
error; the code instead raises the missing-colon `BencodeError` whenever
the buffer ends exactly at the colon (`0:` and `5:` alike), because
`bdecode_str` tests `parts[2]` instead of `parts[1]`.  With bytes after
the colon the claim's behaviour holds (`9:abc` is truncated, `4:spam`
succeeds). -/
theorem c4_string_decode_eval :
    bdecode ['0', ':'] = .error (.bencode .strNoColon) ∧
    bdecode ['5', ':'] = .error (.bencode .strNoColon) ∧
    bdecode ['9', ':', 'a', 'b', 'c'] = .error (.bencode .truncatedString) ∧
    bdecode ['4', ':', 's', 'p', 'a', 'm'] = .ok (.str ['s', 'p', 'a', 'm'], []) :=
  ⟨rfl, rfl, rfl, rfl⟩

/-- C5 (counterexample): the buffer `di1ei2ee`, whose key position holds
the integer 1, decodes successfully to the mapping `{1: 2}` instead of
failing with a non-string-key error (no such check, or error kind, exists
in the code). -/
theorem c5_counterexample :
    bdecode ['d', 'i', '1', 'e', 'i', '2', 'e', 'e'] = .ok (.dict [(.int 1, .int 2)], []) := rfl

/-- C5 (amended): the decoder performs no key-kind check.  A hashable
non-string key (an integer) is accepted into the mapping, and an
unhashable key (a list or dict) raises Python's `TypeError`, which is not
a `BencodeError` at all. -/
theorem c5_dict_keys_unchecked :
    bdecode ['d', 'i', '1', 'e', 'i', '2', 'e', 'e'] = .ok (.dict [(.int 1, .int 2)], []) ∧
    bdecode ['d', 'l', 'e', 'i', '0', 'e', 'e'] = .error .typeError :=
  ⟨rfl, rfl⟩

/-- C8 (confirmed): dispatch of `bdecode` on the first byte — the empty
buffer fails with the empty-input error, a first byte other than `i`,
`l`, `d` or an ASCII digit fails with the missing-type-indicator error,
and `i`/`l`/`d`/digit dispatch to the integer, list, dictionary and
byte-string parsers respectively (the list result is wrapped into a
value, exactly as in the source). -/
theorem c8_dispatch :
    bdecode [] = .error (.bencode .emptyInput) ∧
    (∀ (c : Char) (r : Str), c ≠ 'i' → c ≠ 'l' → c ≠ 'd' → pyDigit c = false →
      bdecode (c :: r) = .error (.bencode .missingTypeIndicator)) ∧
    (∀ r : Str, bdecode ('i' :: r) = bdecode_int ('i' :: r)) ∧
    (∀ r : Str, bdecode ('l' :: r) =
      match bdecode_listF (4 * (r.length + 1) + 1) ('l' :: r) with
      | .error e => .error e
      | .ok (xs, rem) => .ok (.list xs, rem)) ∧
    (∀ r : Str, bdecode ('d' :: r) = bdecode_dictF (4 * (r.length + 1) + 1) ('d' :: r)) ∧
    (∀ (c : Char) (r : Str), pyDigit c = true → bdecode (c :: r) = bdecode_str (c :: r)) :=
  ⟨bdecode_nil_eq, fun _ r h1 h2 h3 h4 => bdecode_cons_other r h1 h2 h3 h4,
    bdecode_cons_i, bdecode_cons_l, bdecode_cons_d,
    fun _ r h => bdecode_cons_digit r h⟩

/-- C8 (witness): the missing-type-indicator clause at the buffer `x`. -/
theorem c8_dispatch_witness : bdecode ['x'] = .error (.bencode .missingTypeIndicator) :=
  c8_dispatch.2.1 'x' [] (by decide) (by decide) (by decide) (by decide)

/-- C9 (counterexample): decode of 64 nested lists succeeds — it does not
fail with any depth-limit error; indeed the error type of the codec has no
`MaxDepthExceeded` kind, and the decoder recurses once per nesting level. -/
theorem c9_counterexample :
    bdecode (List.replicate 64 'l' ++ List.replicate 64 'e') = .ok (nestList 63, []) := by
  have hb := nestBuf_eq 63 []
  rw [List.append_nil] at hb
  rw [show (64 : Nat) = 63 + 1 from rfl, ← hb, bdecode]
  refine bdecodeF_nestBuf 63 _ [] ?_
  rw [hb]
  simp [List.length_append, List.length_replicate]

/-- C9 (amended): the decoder enforces no nesting bound at all and is not
iterative: for every depth d, the buffer of d+1 nested lists decodes
successfully (recursing once per level), and no depth-related error kind
exists. -/
theorem c9_no_depth_limit (d : Nat) :
    bdecode (List.replicate (d + 1) 'l' ++ List.replicate (d + 1) 'e') =
      .ok (nestList d, []) := by
  have hb := nestBuf_eq d []
  rw [List.append_nil] at hb
  rw [← hb, bdecode]
  refine bdecodeF_nestBuf d _ [] ?_
  rw [hb]
  simp only [List.length_append, List.length_replicate]
  omega

/-- C10 (confirmed): decoder totality.  In the embedding, `bdecode` runs
with fuel `4 * length + 2`, and the fuel marker is proved unreachable —
precisely the statement that the source's recursion terminates on every
finite buffer, because every successful inner parse consumes at least one
byte.  Moreover, on success the remainder is a proper suffix of the
input: strictly shorter and a suffix. -/
theorem c10_decode_totality (s : Str) :
    bdecode s ≠ .error .outOfFuel ∧
    ∀ v r, bdecode s = .ok (v, r) → r.length < s.length ∧ r <:+ s := by
  refine ⟨bdecode_no_fuel_error s, ?_⟩
  intro v r h
  exact (decode_consume (4 * s.length + 2)).1 s v r h

/-- C10 (witness): the totality statement at the buffer `i1ex`, which
decodes to the integer 1 with remainder `x`. -/
theorem c10_decode_totality_witness :
    (['x'] : Str).length < (['i', '1', 'e', 'x'] : Str).length ∧
    (['x'] : Str) <:+ ['i', '1', 'e', 'x'] :=
  (c10_decode_totality ['i', '1', 'e', 'x']).2 (.int 1) ['x'] rfl

/-- C6 (confirmed): canonical dictionary encoding.  Both insertion orders
of `{"b": 1, "a": 2}` encode to `d1:ai2e1:bi1ee`; for dictionaries with
(unique) string keys the encoding is invariant under permutation of the
entries; and the emitted key sequence (the source's sorted coerced keys)
is strictly ascending in raw byte order. -/
theorem c6_canonical_dict_encoding :
    bencode (.dict [(.str ['b'], .int 1), (.str ['a'], .int 2)]) =
      .ok ['d', '1', ':', 'a', 'i', '2', 'e', '1', ':', 'b', 'i', '1', 'e', 'e'] ∧
    bencode (.dict [(.str ['a'], .int 2), (.str ['b'], .int 1)]) =
      .ok ['d', '1', ':', 'a', 'i', '2', 'e', '1', ':', 'b', 'i', '1', 'e', 'e'] ∧
    (∀ e1 e2 : List (PyVal × PyVal),
      (∀ p ∈ e1, ∃ s, p.1 = PyVal.str s) →
      (e1.map (fun p => pyStr p.1)).Nodup →
      e1.Perm e2 →
      bencode (.dict e1) = bencode (.dict e2)) ∧
    (∀ e : List (PyVal × PyVal), (e.map (fun p => pyStr p.1)).Nodup →
      (sortKeys e).Pairwise (fun a b => StrLe a b ∧ a ≠ b)) := by
  refine ⟨rfl, rfl, ?_, sortKeys_strict⟩
  intro e1 e2 _ hnd hperm
  exact bencode_dict_perm hnd hperm

/-- C6 (witness): permutation invariance at the two orders of
`{"a": 1, "b": 2}`, and strict ascent of its sorted keys. -/
theorem c6_canonical_dict_encoding_witness :
    bencode (.dict [(.str ['a'], .int 1), (.str ['b'], .int 2)]) =
      bencode (.dict [(.str ['b'], .int 2), (.str ['a'], .int 1)]) :=
  c6_canonical_dict_encoding.2.2.1 _ _
    (by
      intro p hp
      rcases List.mem_cons.mp hp with rfl | hp
      · exact ⟨['a'], rfl⟩
      rcases List.mem_cons.mp hp with rfl | hp
      · exact ⟨['b'], rfl⟩
      · exact absurd hp (List.not_mem_nil p))
    (by decide)
    (List.Perm.swap _ _ _)

/-- C7 (confirmed): canonical integer encoding.  `bencode` sends an
integer (and a boolean, coerced by `long()` to 0/1) through
`bencode_int`, which emits `i`, the decimal rendering, and `e`; the
rendering has a leading `-` exactly when the integer is negative, its
digit part is a non-empty all-digit run with no leading zero (the first
digit is `0` only for the value 0), and the digits denote the integer's
absolute value.  The literal cases `i42e`, `i-3e`, `i1e` and `i0e` hold. -/
theorem c7_integer_encoding :
    (∀ n : Int, bencode (.int n) = .ok (bencode_int n)) ∧
    (∀ b : Bool, bencode (.bool b) = .ok (bencode_int (if b then 1 else 0))) ∧
    (∀ n : Int, bencode_int n = 'i' :: (intToStr n ++ ['e'])) ∧
    (∀ n : Int, n < 0 → intToStr n = '-' :: natToDigits n.natAbs) ∧
    (∀ n : Int, 0 ≤ n → intToStr n = natToDigits n.toNat) ∧
    (∀ n : Int, (intToStr n).head? = some '-' ↔ n < 0) ∧
    (∀ m : Nat, digitsVal (natToDigits m) = m ∧ (natToDigits m).all pyDigit = true ∧
      natToDigits m ≠ [] ∧ (∀ c t, natToDigits m = c :: t → (c = '0' ↔ m = 0))) ∧
    bencode (.int 42) = .ok ['i', '4', '2', 'e'] ∧
    bencode (.int (-3)) = .ok ['i', '-', '3', 'e'] ∧
    bencode (.bool true) = .ok ['i', '1', 'e'] ∧
    bencode (.int 0) = .ok ['i', '0', 'e'] := by
  refine ⟨fun n => rfl, fun b => rfl, fun n => rfl, ?_, ?_, ?_, ?_, rfl, rfl, rfl, rfl⟩
  · intro n h
    rw [intToStr, if_pos h]
  · intro n h
    rw [intToStr, if_neg (not_lt.mpr h)]
  · intro n
    by_cases h : n < 0
    · simp [intToStr, if_pos h, h]
    · rw [intToStr, if_neg h]
      simp only [h, iff_false]
      intro hc
      by_cases h0 : n.toNat = 0
      · rw [h0] at hc
        exact absurd hc (by decide)
      · obtain ⟨c, t, heq, hdig, _⟩ := natToDigits_no_leading_zero h0
        rw [heq] at hc
        simp only [List.head?_cons, Option.some.injEq] at hc
        exact digit_ne_minus hdig hc
  · intro m
    refine ⟨digitsVal_natToDigits m, all_digits_natToDigits m, natToDigits_ne_nil m, ?_⟩
    intro c t heq
    constructor
    · intro hc0
      by_contra hm
      obtain ⟨c2, t2, heq2, _, hne⟩ := natToDigits_no_leading_zero hm
      rw [heq] at heq2
      exact hne (by injection heq2 with h1 _; rw [← h1, hc0])
    · intro hm
      subst hm
      have h01 : (['0'] : Str) = c :: t := heq
      injection h01 with h1 _
      exact h1.symm

/-- C7 (witness): the negative-rendering clause at n = -3. -/
theorem c7_integer_encoding_witness :
    intToStr (-3) = '-' :: natToDigits ((-3 : Int)).natAbs :=
  c7_integer_encoding.2.2.2.1 (-3) (by decide)

end FreeBencode
